import Mathlib

/-!
Verification development for the split-pro balance ledger, user router and
its import page.  The data model and the operations below are shallow embeddings
of the TypeScript source: the relational balance table becomes a list of rows
in store order, Prisma `findMany`/`deleteMany` calls become list filters, and
each routed procedure becomes a pure function from the store to a result
together with the (possibly updated) store.  Parts of the repository that are
only called from the sampled source (the splitService balance writes and the
Splitwise import services) are modelled from the specification and marked as
such on their definitions.
-/

/-- A row of the `balance` table: (userId, friendId, currency, amount).
`amount` is the signed total the friend owes the user in that currency. -/
structure Balance where
  userId : Nat
  friendId : Nat
  currency : String
  amount : Int
deriving DecidableEq, Repr

/-- The balance table, as a list of rows in store order. -/
abbrev DbState := List Balance

/-- Error codes thrown by the router via TRPCError. -/
inductive TrpcCode where
  | unauthorized
  | badRequest
deriving DecidableEq, Repr

/-- The Prisma `where` clause `{userId, friendId, currency}` as a row predicate. -/
def keyMatch (u f : Nat) (c : String) (b : Balance) : Bool :=
  b.userId == u && b.friendId == f && b.currency == c

/-- Whether the table has a row for the key (u, f, c). -/
def hasKey (s : DbState) (u f : Nat) (c : String) : Bool :=
  s.any (keyMatch u f c)

/-- `getBalancesWithFriend`: `db.balance.findMany({where: {userId, friendId,
amount: {not: 0}}})`.  A query: it returns the matching rows and leaves the
store unchanged. -/
def getBalancesWithFriend (s : DbState) (actingId friendId : Nat) :
    List Balance × DbState :=
  (s.filter (fun b => b.userId == actingId && b.friendId == friendId && b.amount != 0), s)

/-- `deleteFriend` (router): find the acting user's non-zero balances with the
friend; if any exist, throw BAD_REQUEST ("You have outstanding balances with
this friend") leaving the store untouched; otherwise delete the balance rows
in both directions (`deleteMany` with userId/friendId swapped, then
`deleteMany` with them direct).  Returns the thrown error (if any) and the
resulting store. -/
def deleteFriend (s : DbState) (actingId friendId : Nat) :
    Option TrpcCode × DbState :=
  let friendBalances :=
    s.filter (fun b => b.userId == actingId && b.friendId == friendId && b.amount != 0)
  if 0 < friendBalances.length then
    (some .badRequest, s)
  else
    let s1 := s.filter (fun b => !(b.userId == friendId && b.friendId == actingId))
    let s2 := s1.filter (fun b => !(b.userId == actingId && b.friendId == friendId))
    (none, s2)

/-- `b'` is the mirror row of `b`: endpoints swapped, same currency, negated
amount. -/
def isMirrorOf (b b' : Balance) : Bool :=
  b'.userId == b.friendId && b'.friendId == b.userId &&
    b'.currency == b.currency && b'.amount == -b.amount

/-- The mirrored-pair invariant of the ledger: every stored row has a stored
mirror row. -/
def mirrorInv (s : DbState) : Bool :=
  s.all (fun b => s.any (fun b' => isMirrorOf b b'))

/-- Modelled from the spec: the balance write used by the splitService ledger
mutations (expense create/edit/delete and settlement), whose source is not in
the sampled files: add a signed delta to the (userId, friendId, currency) row,
creating the row when absent. -/
def addDelta (s : DbState) (u f : Nat) (c : String) (d : Int) : DbState :=
  if hasKey s u f c then
    s.map (fun b => if keyMatch u f c b then { b with amount := b.amount + d } else b)
  else
    s ++ [⟨u, f, c, d⟩]

/-- Modelled from the spec: a ledger mutation writes both mirrored rows
atomically: `+d` on (u, f, c) and `-d` on (f, u, c). -/
def applyMirrorDelta (s : DbState) (u f : Nat) (c : String) (d : Int) : DbState :=
  addDelta (addDelta s u f c d) f u c (-d)

/-- A ledger operation.  `expenseDeltas payer c shares` covers expense
creation (positive shares), deletion/reversal (negated shares), editing
(reversal followed by re-application) and settlement records, each of which
reduces to mirrored per-participant deltas per the spec; `deleteFriend` is the
router procedure embedded above. -/
inductive LedgerOp where
  | expenseDeltas (payer : Nat) (currency : String) (shares : List (Nat × Int))
  | deleteFriend (actingId friendId : Nat)

/-- Apply one ledger operation to the store (a thrown error leaves the store
as the operation left it, i.e. unchanged for `deleteFriend`). -/
def applyOp (s : DbState) : LedgerOp → DbState
  | .expenseDeltas payer c shares =>
      shares.foldl (fun acc pd => applyMirrorDelta acc payer pd.1 c pd.2) s
  | .deleteFriend a f => (deleteFriend s a f).2

/-- Run a sequence of ledger operations. -/
def runLedger (s : DbState) (ops : List LedgerOp) : DbState :=
  ops.foldl applyOp s

/-- The row update performed by `addDelta` when the key is present. -/
def updAdd (u f : Nat) (c : String) (d : Int) (b : Balance) : Balance :=
  if keyMatch u f c b then { b with amount := b.amount + d } else b

theorem addDelta_eq (s : DbState) (u f : Nat) (c : String) (d : Int) :
    addDelta s u f c d =
      if hasKey s u f c then s.map (updAdd u f c d) else s ++ [⟨u, f, c, d⟩] :=
  rfl

theorem keyMatch_iff {u f : Nat} {c : String} {b : Balance} :
    keyMatch u f c b = true ↔ b.userId = u ∧ b.friendId = f ∧ b.currency = c := by
  simp [keyMatch, and_assoc]

theorem isMirrorOf_iff {b b' : Balance} :
    isMirrorOf b b' = true ↔
      b'.userId = b.friendId ∧ b'.friendId = b.userId ∧
        b'.currency = b.currency ∧ b'.amount = -b.amount := by
  simp [isMirrorOf, and_assoc]

theorem mirrorInv_iff {s : DbState} :
    mirrorInv s = true ↔ ∀ b ∈ s, ∃ b' ∈ s, isMirrorOf b b' = true := by
  simp [mirrorInv, List.all_eq_true, List.any_eq_true]

theorem mirror_hasKey {s : DbState} {u f : Nat} {c : String}
    (h : mirrorInv s = true) (hk : hasKey s u f c = true) : hasKey s f u c = true := by
  rw [mirrorInv_iff] at h
  rw [hasKey, List.any_eq_true] at hk ⊢
  obtain ⟨b, hb, hkb⟩ := hk
  obtain ⟨b', hb', hm⟩ := h b hb
  rw [keyMatch_iff] at hkb
  rw [isMirrorOf_iff] at hm
  exact ⟨b', hb', keyMatch_iff.mpr ⟨by omega, by omega, by simp [hm.2.2.1, hkb.2.2]⟩⟩

theorem keyMatch_updAdd (u f u' f' : Nat) (c c' : String) (d : Int) (b : Balance) :
    keyMatch u' f' c' (updAdd u f c d b) = keyMatch u' f' c' b := by
  unfold updAdd
  split <;> simp [keyMatch]

theorem hasKey_map_updAdd (s : DbState) (u f u' f' : Nat) (c c' : String) (d : Int) :
    hasKey (s.map (updAdd u f c d)) u' f' c' = hasKey s u' f' c' := by
  simp only [hasKey, List.any_map]
  congr 1
  funext b
  exact keyMatch_updAdd u f u' f' c c' d b

theorem map_updAdd_id {s : DbState} {u f : Nat} {c : String} (d : Int)
    (h : hasKey s u f c = false) : s.map (updAdd u f c d) = s := by
  have hall : ∀ b ∈ s, keyMatch u f c b = false := by
    intro b hb
    by_contra hcon
    have : hasKey s u f c = true :=
      List.any_eq_true.mpr ⟨b, hb, by revert hcon; cases keyMatch u f c b <;> simp⟩
    simp [this] at h
  have : s.map (updAdd u f c d) = s.map id := by
    apply List.map_congr_left
    intro b hb
    simp [updAdd, hall b hb]
  rw [this, List.map_id]

theorem updAdd_userId (u f : Nat) (c : String) (d : Int) (b : Balance) :
    (updAdd u f c d b).userId = b.userId := by
  unfold updAdd; split <;> rfl

theorem updAdd_friendId (u f : Nat) (c : String) (d : Int) (b : Balance) :
    (updAdd u f c d b).friendId = b.friendId := by
  unfold updAdd; split <;> rfl

theorem updAdd_currency (u f : Nat) (c : String) (d : Int) (b : Balance) :
    (updAdd u f c d b).currency = b.currency := by
  unfold updAdd; split <;> rfl

theorem updAdd_amount (u f : Nat) (c : String) (d : Int) (b : Balance) :
    (updAdd u f c d b).amount = b.amount + (if keyMatch u f c b then d else 0) := by
  unfold updAdd; split <;> simp_all

theorem keyMatch_mirror {u f : Nat} {c : String} {b b' : Balance}
    (h : isMirrorOf b b' = true) : keyMatch u f c b' = keyMatch f u c b := by
  rw [isMirrorOf_iff] at h
  obtain ⟨h1, h2, h3, _⟩ := h
  simp only [keyMatch, h1, h2, h3]
  rw [Bool.and_comm (b.friendId == u) (b.userId == f)]

theorem isMirrorOf_updAdd_pair {u f : Nat} {c : String} {d : Int} {b b' : Balance}
    (h : isMirrorOf b b' = true) :
    isMirrorOf (updAdd f u c (-d) (updAdd u f c d b))
      (updAdd f u c (-d) (updAdd u f c d b')) = true := by
  have h' := isMirrorOf_iff.mp h
  rw [isMirrorOf_iff]
  refine ⟨?_, ?_, ?_, ?_⟩
  · rw [updAdd_userId, updAdd_userId, updAdd_friendId, updAdd_friendId]
    exact h'.1
  · rw [updAdd_friendId, updAdd_friendId, updAdd_userId, updAdd_userId]
    exact h'.2.1
  · rw [updAdd_currency, updAdd_currency, updAdd_currency, updAdd_currency]
    exact h'.2.2.1
  · rw [updAdd_amount, updAdd_amount, updAdd_amount, updAdd_amount,
      keyMatch_updAdd, keyMatch_updAdd,
      @keyMatch_mirror f u c b b' h, @keyMatch_mirror u f c b b' h]
    have h4 := h'.2.2.2
    cases hA : keyMatch u f c b <;> cases hB : keyMatch f u c b <;> simp <;> omega

theorem notPair_iff {x : Balance} {p q : Nat} :
    (!(x.userId == p && x.friendId == q)) = true ↔ ¬(x.userId = p ∧ x.friendId = q) := by
  simp
  tauto

theorem mirror_applyMirrorDelta {s : DbState} (u f : Nat) (c : String) (d : Int)
    (h : mirrorInv s = true) : mirrorInv (applyMirrorDelta s u f c d) = true := by
  by_cases hk : hasKey s u f c = true
  · have hk' : hasKey s f u c = true := mirror_hasKey h hk
    have e1 : addDelta s u f c d = s.map (updAdd u f c d) := by
      rw [addDelta_eq, if_pos hk]
    have hk2 : hasKey (s.map (updAdd u f c d)) f u c = true := by
      rw [hasKey_map_updAdd]; exact hk'
    have e2 : addDelta (s.map (updAdd u f c d)) f u c (-d)
        = (s.map (updAdd u f c d)).map (updAdd f u c (-d)) := by
      rw [addDelta_eq, if_pos hk2]
    rw [applyMirrorDelta, e1, e2, List.map_map]
    rw [mirrorInv_iff] at h ⊢
    intro x hx
    rw [List.mem_map] at hx
    obtain ⟨b0, hb0, rfl⟩ := hx
    obtain ⟨b0', hb0', hm⟩ := h b0 hb0
    exact ⟨(updAdd f u c (-d) ∘ updAdd u f c d) b0', List.mem_map_of_mem _ hb0',
      isMirrorOf_updAdd_pair hm⟩
  · have hk0 : hasKey s u f c = false := by simpa using hk
    have hk0' : hasKey s f u c = false := by
      by_contra hcon
      have hcon' : hasKey s f u c = true := by simpa using hcon
      exact hk (mirror_hasKey h hcon')
    have e1 : addDelta s u f c d = s ++ [⟨u, f, c, d⟩] := by
      rw [addDelta_eq, if_neg (by simp [hk0])]
    by_cases huf : u = f
    · subst huf
      have hk2 : hasKey (s ++ [⟨u, u, c, d⟩]) u u c = true := by
        simp [hasKey, List.any_append, keyMatch]
      have e2 : addDelta (s ++ [⟨u, u, c, d⟩]) u u c (-d)
          = (s ++ [(⟨u, u, c, d⟩ : Balance)]).map (updAdd u u c (-d)) := by
        rw [addDelta_eq, if_pos hk2]
      rw [applyMirrorDelta, e1, e2, List.map_append, map_updAdd_id (-d) hk0]
      have e3 : [(⟨u, u, c, d⟩ : Balance)].map (updAdd u u c (-d)) = [⟨u, u, c, 0⟩] := by
        simp [updAdd, keyMatch]
      rw [e3]
      rw [mirrorInv_iff] at h ⊢
      intro x hx
      rcases List.mem_append.mp hx with hxs | hxnew
      · obtain ⟨x', hx', hm⟩ := h x hxs
        exact ⟨x', List.mem_append_left _ hx', hm⟩
      · simp only [List.mem_singleton] at hxnew
        subst hxnew
        refine ⟨⟨u, u, c, 0⟩, List.mem_append_right _ (by simp), ?_⟩
        rw [isMirrorOf_iff]
        simp
    · have hk2 : hasKey (s ++ [⟨u, f, c, d⟩]) f u c = false := by
        rw [hasKey, List.any_append]
        rw [hasKey] at hk0'
        simp [hk0', keyMatch, Ne.symm huf]
      have e2 : addDelta (s ++ [⟨u, f, c, d⟩]) f u c (-d)
          = (s ++ [⟨u, f, c, d⟩]) ++ [⟨f, u, c, -d⟩] := by
        rw [addDelta_eq, if_neg (by simp [hk2])]
      rw [applyMirrorDelta, e1, e2]
      rw [mirrorInv_iff] at h ⊢
      intro x hx
      rcases List.mem_append.mp hx with hx1 | hxnew2
      · rcases List.mem_append.mp hx1 with hxs | hxnew1
        · obtain ⟨x', hx', hm⟩ := h x hxs
          exact ⟨x', List.mem_append_left _ (List.mem_append_left _ hx'), hm⟩
        · simp only [List.mem_singleton] at hxnew1
          subst hxnew1
          refine ⟨⟨f, u, c, -d⟩, List.mem_append_right _ (by simp), ?_⟩
          rw [isMirrorOf_iff]
          simp
      · simp only [List.mem_singleton] at hxnew2
        subst hxnew2
        refine ⟨⟨u, f, c, d⟩, List.mem_append_left _ (List.mem_append_right _ (by simp)), ?_⟩
        rw [isMirrorOf_iff]
        simp

theorem mirror_foldl_shares (payer : Nat) (c : String) :
    ∀ (shares : List (Nat × Int)) (s : DbState), mirrorInv s = true →
      mirrorInv (shares.foldl (fun acc pd => applyMirrorDelta acc payer pd.1 c pd.2) s) = true
  | [], _, h => h
  | pd :: rest, s, h =>
      mirror_foldl_shares payer c rest (applyMirrorDelta s payer pd.1 c pd.2)
        (mirror_applyMirrorDelta payer pd.1 c pd.2 h)

theorem mirror_deleteFriend {s : DbState} (a f : Nat) (h : mirrorInv s = true) :
    mirrorInv (deleteFriend s a f).2 = true := by
  by_cases hc :
      0 < (s.filter (fun b => b.userId == a && b.friendId == f && b.amount != 0)).length
  · simp only [deleteFriend, if_pos hc]
    exact h
  · simp only [deleteFriend, if_neg hc]
    rw [mirrorInv_iff] at h ⊢
    intro x hx
    rw [List.mem_filter, List.mem_filter] at hx
    obtain ⟨⟨hxs, hp1⟩, hp2⟩ := hx
    rw [notPair_iff] at hp1 hp2
    obtain ⟨x', hx', hm⟩ := h x hxs
    have hm' := isMirrorOf_iff.mp hm
    refine ⟨x', ?_, hm⟩
    rw [List.mem_filter, List.mem_filter]
    refine ⟨⟨hx', ?_⟩, ?_⟩
    · rw [notPair_iff, hm'.1, hm'.2.1]
      intro hcon
      exact hp2 ⟨hcon.2, hcon.1⟩
    · rw [notPair_iff, hm'.1, hm'.2.1]
      intro hcon
      exact hp1 ⟨hcon.2, hcon.1⟩

theorem mirror_runLedger : ∀ (ops : List LedgerOp) (s : DbState), mirrorInv s = true →
    mirrorInv (runLedger s ops) = true
  | [], _, h => h
  | op :: rest, s, h => by
    have h1 : mirrorInv (applyOp s op) = true := by
      cases op with
      | expenseDeltas payer c shares => exact mirror_foldl_shares payer c shares s h
      | deleteFriend a f => exact mirror_deleteFriend a f h
    exact mirror_runLedger rest (applyOp s op) h1

/-- Claim C1: for every pair of users A and B and every currency c, after every
sequence of ledger operations (expense create/edit/delete, settlement, friend
deletion) starting from a store satisfying the mirrored-pair invariant,
whenever a stored balance row (A, B, c) with amount x exists, the mirrored row
(B, A, c) exists with amount -x. -/
theorem ledger_mirror_invariant (s : DbState) (ops : List LedgerOp)
    (h : mirrorInv s = true) :
    ∀ b ∈ runLedger s ops, ∃ b' ∈ runLedger s ops,
      b'.userId = b.friendId ∧ b'.friendId = b.userId ∧
        b'.currency = b.currency ∧ b'.amount = -b.amount := by
  have hall := mirrorInv_iff.mp (mirror_runLedger ops s h)
  intro b hb
  obtain ⟨b', hb', hm⟩ := hall b hb
  exact ⟨b', hb', isMirrorOf_iff.mp hm⟩

/-- Witness for C1 at a concrete store and operation sequence. -/
theorem ledger_mirror_invariant_witness :
    mirrorInv [] = true ∧
      ∀ b ∈ runLedger []
          [LedgerOp.expenseDeltas 1 "USD" [(2, 5), (3, 7)], LedgerOp.deleteFriend 1 4],
        ∃ b' ∈ runLedger []
            [LedgerOp.expenseDeltas 1 "USD" [(2, 5), (3, 7)], LedgerOp.deleteFriend 1 4],
          b'.userId = b.friendId ∧ b'.friendId = b.userId ∧
            b'.currency = b.currency ∧ b'.amount = -b.amount :=
  ⟨by decide, ledger_mirror_invariant [] _ (by decide)⟩

/-- Claim C2: `deleteFriend` fails with BAD_REQUEST (outstanding balance) iff
some currency balance between the acting user and the friend is non-zero; on
failure the store is unchanged; on success a row survives iff it is not a row
between the two users in either direction (so both mirrored rows are removed
for every currency). -/
theorem deleteFriend_spec (s : DbState) (a f : Nat) (hinv : mirrorInv s = true) :
    ((deleteFriend s a f).1 = some TrpcCode.badRequest ↔
      ∃ b ∈ s, ((b.userId = a ∧ b.friendId = f) ∨ (b.userId = f ∧ b.friendId = a)) ∧
        b.amount ≠ 0) ∧
    ((deleteFriend s a f).1 ≠ none → (deleteFriend s a f).2 = s) ∧
    ((deleteFriend s a f).1 = none →
      ∀ b, b ∈ (deleteFriend s a f).2 ↔
        b ∈ s ∧ ¬(b.userId = a ∧ b.friendId = f) ∧ ¬(b.userId = f ∧ b.friendId = a)) := by
  by_cases hc :
      0 < (s.filter (fun b => b.userId == a && b.friendId == f && b.amount != 0)).length
  · have e1 : (deleteFriend s a f).1 = some TrpcCode.badRequest := by
      simp only [deleteFriend, if_pos hc]
    have e2 : (deleteFriend s a f).2 = s := by
      simp only [deleteFriend, if_pos hc]
    refine ⟨iff_of_true e1 ?_, fun _ => e2,
      fun hnone => Option.noConfusion (e1.symm.trans hnone)⟩
    obtain ⟨b, hb⟩ := List.length_pos_iff_exists_mem.mp hc
    rw [List.mem_filter] at hb
    obtain ⟨hbs, hbp⟩ := hb
    simp only [Bool.and_eq_true, beq_iff_eq, bne_iff_ne] at hbp
    exact ⟨b, hbs, Or.inl ⟨hbp.1.1, hbp.1.2⟩, hbp.2⟩
  · have e1 : (deleteFriend s a f).1 = none := by
      simp only [deleteFriend, if_neg hc]
    have e2 : (deleteFriend s a f).2 =
        (s.filter (fun b => !(b.userId == f && b.friendId == a))).filter
          (fun b => !(b.userId == a && b.friendId == f)) := by
      simp only [deleteFriend, if_neg hc]
    refine ⟨iff_of_false (by rw [e1]; simp) ?_, fun hne => absurd e1 hne, fun _ b => ?_⟩
    · rintro ⟨b, hbs, hdir, hamt⟩
      apply hc
      rcases hdir with ⟨h1, h2⟩ | ⟨h1, h2⟩
      · refine List.length_pos_iff_exists_mem.mpr ⟨b, ?_⟩
        rw [List.mem_filter]
        exact ⟨hbs, by simp [h1, h2, hamt]⟩
      · obtain ⟨b', hb', hm⟩ := (mirrorInv_iff.mp hinv) b hbs
        have hm' := isMirrorOf_iff.mp hm
        refine List.length_pos_iff_exists_mem.mpr ⟨b', ?_⟩
        rw [List.mem_filter]
        refine ⟨hb', ?_⟩
        have : b'.amount ≠ 0 := by rw [hm'.2.2.2]; omega
        simp [hm'.1, hm'.2.1, h1, h2, this]
    · rw [e2]
      simp only [List.mem_filter]
      rw [notPair_iff, notPair_iff]
      tauto

/-- Witness for C2 at a concrete mirrored store with an outstanding balance. -/
theorem deleteFriend_spec_witness :
    mirrorInv [⟨1, 2, "USD", 5⟩, ⟨2, 1, "USD", -5⟩] = true ∧
      (deleteFriend [⟨1, 2, "USD", 5⟩, ⟨2, 1, "USD", -5⟩] 1 2).1 =
        some TrpcCode.badRequest :=
  ⟨by decide, (deleteFriend_spec _ 1 2 (by decide)).1.mpr (by decide)⟩

/-- Claim C6: `getBalancesWithFriend` returns exactly the stored rows with
userId = acting user, friendId = friend and non-zero amount; no zero-amount
row is returned; the store is unchanged. -/
theorem getBalancesWithFriend_spec (s : DbState) (u f : Nat) :
    (∀ b, b ∈ (getBalancesWithFriend s u f).1 ↔
      b ∈ s ∧ b.userId = u ∧ b.friendId = f ∧ b.amount ≠ 0) ∧
    (∀ b ∈ (getBalancesWithFriend s u f).1, b.amount ≠ 0) ∧
    (getBalancesWithFriend s u f).2 = s := by
  have hmem : ∀ b, b ∈ (getBalancesWithFriend s u f).1 ↔
      b ∈ s ∧ b.userId = u ∧ b.friendId = f ∧ b.amount ≠ 0 := by
    intro b
    simp [getBalancesWithFriend, List.mem_filter, and_assoc]
  exact ⟨hmem, fun b hb => ((hmem b).mp hb).2.2.2, rfl⟩

/-- Witness for C6 at a concrete store. -/
theorem getBalancesWithFriend_spec_witness :
    (⟨1, 2, "USD", 5⟩ : Balance) ∈
      (getBalancesWithFriend [⟨1, 2, "USD", 5⟩, ⟨1, 2, "EUR", 0⟩] 1 2).1 :=
  ((getBalancesWithFriend_spec [⟨1, 2, "USD", 5⟩, ⟨1, 2, "EUR", 0⟩] 1 2).1 _).mpr
    (by decide)

/-- Lexicographic comparison of character lists. -/
def charListLe : List Char → List Char → Bool
  | [], _ => true
  | _ :: _, [] => false
  | a :: as, b :: bs => if a < b then true else if a = b then charListLe as bs else false

/-- Lexicographic order on currency codes. -/
def currencyLe (a b : String) : Bool :=
  charListLe a.data b.data

/-- Adjacent-pairs check that a result list is sorted by currency code. -/
def sortedByCurrency : List Balance → Bool
  | [] => true
  | [_] => true
  | a :: b :: t => currencyLe a.currency b.currency && sortedByCurrency (b :: t)

/-- Counterexample for claim C7: the query has no orderBy, so a store whose
rows are not in currency order is returned in store order, unsorted. -/
theorem getBalancesWithFriend_not_sorted :
    sortedByCurrency
      (getBalancesWithFriend [⟨1, 2, "USD", 5⟩, ⟨1, 2, "EUR", 3⟩] 1 2).1 = false := by
  decide

/-- Claim C7 (amended): `getBalancesWithFriend` returns the matching rows in
the store's order (the result is a sublist of the stored rows), so repeated
queries over the same state return the same deterministic order; it does not
sort by currency code. -/
theorem getBalancesWithFriend_store_order (s : DbState) (u f : Nat) :
    List.Sublist (getBalancesWithFriend s u f).1 s :=
  List.filter_sublist s

/-- One entry of a Splitwise friend's per-currency balance list. -/
structure SwBalanceEntry where
  currency_code : String
  amount : String
deriving DecidableEq, Repr

/-- The Splitwise friend record consumed by the import page and router. -/
structure SplitwiseUser where
  id : Nat
  email : String
  registration_status : String
  balance : List SwBalanceEntry
deriving DecidableEq, Repr

/-- A Splitwise group member (only the email is used by the reconciler). -/
structure SwMember where
  email : String
deriving DecidableEq, Repr

/-- The Splitwise group record consumed by the import page and router. -/
structure SplitwiseGroup where
  id : Nat
  name : String
  members : List SwMember
deriving DecidableEq, Repr

/-- The friends loop of `handleFileChange`: keep a friend iff its balance list
is non-empty (JS truthiness of `balance.length`) and
`registration_status === 'confirmed'`. -/
def retainedFriends (friends : List SplitwiseUser) : List SplitwiseUser :=
  friends.filter (fun f => !f.balance.isEmpty && f.registration_status == "confirmed")

/-- The groups filter of `handleFileChange`:
`groups.filter((g) => 0 < g.members.length && 0 !== g.id)`. -/
def retainedGroups (gs : List SplitwiseGroup) : List SplitwiseGroup :=
  gs.filter (fun g => decide (0 < g.members.length) && g.id != 0)

/-- Claim C4: the retained friends are exactly those with confirmed
registration and a non-empty balance list, and the retained groups are
exactly those with at least one member and an id different from the reserved
"no group" sentinel 0. -/
theorem import_filters_spec (friends : List SplitwiseUser) (gs : List SplitwiseGroup) :
    (∀ f, f ∈ retainedFriends friends ↔
      f ∈ friends ∧ f.registration_status = "confirmed" ∧ f.balance ≠ []) ∧
    (∀ g, g ∈ retainedGroups gs ↔ g ∈ gs ∧ g.members ≠ [] ∧ g.id ≠ 0) := by
  constructor
  · intro f
    rw [retainedFriends, List.mem_filter]
    simp [List.isEmpty_iff]
    tauto
  · intro g
    rw [retainedGroups, List.mem_filter]
    simp [List.length_pos]

/-- Witness for C4 at concrete inputs. -/
theorem import_filters_spec_witness :
    (⟨7, "a@b.c", "confirmed", [⟨"USD", "5.0"⟩]⟩ : SplitwiseUser) ∈
      retainedFriends [⟨7, "a@b.c", "confirmed", [⟨"USD", "5.0"⟩]⟩,
        ⟨8, "d@e.f", "invited", [⟨"USD", "1.0"⟩]⟩] :=
  ((import_filters_spec [⟨7, "a@b.c", "confirmed", [⟨"USD", "5.0"⟩]⟩,
      ⟨8, "d@e.f", "invited", [⟨"USD", "1.0"⟩]⟩] []).1 _).mpr (by decide)

/-- A structurally parsed field of the uploaded file: `malformed` stands for
a missing or ill-shaped field (accessing it throws at runtime), `ok` for a
well-formed array. -/
inductive ParsedField (α : Type) where
  | malformed
  | ok (v : α)
deriving DecidableEq, Repr

/-- The structural parse of an uploaded file's content: `none` when
`JSON.parse` itself throws, otherwise the (separately well- or ill-shaped)
`friends` and `groups` fields. -/
structure SwFileParse where
  friendsField : ParsedField (List SplitwiseUser)
  groupsField : ParsedField (List SplitwiseGroup)
deriving DecidableEq, Repr

/-- The import page's component state touched by `handleFileChange`. -/
structure PageState where
  usersWithBalance : List SplitwiseUser
  groups : List SplitwiseGroup
deriving DecidableEq, Repr

/-- Whether the structural parse of the upload fails at some stage. -/
def parseFailed : Option SwFileParse → Bool
  | none => true
  | some f =>
    (match f.friendsField with | .malformed => true | .ok _ => false) ||
      (match f.groupsField with | .malformed => true | .ok _ => false)

/-- `handleFileChange`, as the sequence of state updates the page performs
inside its try/catch: parse the JSON, build and apply the retained friends
(`setUsersWithBalance` runs after the friends loop), then build and apply the
retained groups (`setGroups`); any throw aborts the remaining updates and
reaches the catch block, which reports a generic import failure
(`toast.error('Error importing file')`).  Returns the final component state
and whether the failure toast was shown. -/
def handleFileChange (st : PageState) (file : Option SwFileParse) :
    PageState × Bool :=
  match file with
  | none => (st, true)
  | some f =>
    match f.friendsField with
    | .malformed => (st, true)
    | .ok friends =>
      let st1 : PageState := { st with usersWithBalance := retainedFriends friends }
      match f.groupsField with
      | .malformed => (st1, true)
      | .ok gs => ({ st1 with groups := retainedGroups gs }, false)

/-- Counterexample for claim C8: a file whose `friends` field parses (as the
empty array) but whose `groups` field is ill-shaped fails structural parsing
and is reported, yet the friends part of the file has already been applied:
the retained friends are no longer those from before the upload. -/
theorem handleFileChange_partial_cex :
    (handleFileChange ⟨[⟨7, "a@b.c", "confirmed", [⟨"USD", "5.0"⟩]⟩], []⟩
        (some ⟨.ok [], .malformed⟩)).2 = true ∧
      (handleFileChange ⟨[⟨7, "a@b.c", "confirmed", [⟨"USD", "5.0"⟩]⟩], []⟩
          (some ⟨.ok [], .malformed⟩)).1 ≠
        ⟨[⟨7, "a@b.c", "confirmed", [⟨"USD", "5.0"⟩]⟩], []⟩ := by
  decide

/-- Claim C8 (amended): every structural parse failure is caught and reported
as a generic import failure; malformed JSON or an ill-shaped `friends` field
leaves the page state unchanged; but an ill-shaped `groups` field reached
after a well-formed `friends` field leaves the already-applied retained
friends in place (only the groups state is unchanged). -/
theorem handleFileChange_spec (st : PageState) (file : Option SwFileParse) :
    ((handleFileChange st file).2 = true ↔ parseFailed file = true) ∧
    (file = none → (handleFileChange st file).1 = st) ∧
    (∀ f, file = some f → f.friendsField = .malformed →
      (handleFileChange st file).1 = st) ∧
    (∀ f friends, file = some f → f.friendsField = .ok friends →
      f.groupsField = .malformed →
      (handleFileChange st file).1 = ⟨retainedFriends friends, st.groups⟩) := by
  rcases file with _ | ⟨ff, gf⟩
  · simp [handleFileChange, parseFailed]
  · cases ff with
    | malformed =>
      cases gf <;>
        exact ⟨by simp [handleFileChange, parseFailed], by simp,
          fun f' heq _ => by injection heq with h'; subst h'; simp [handleFileChange],
          fun f' friends heq hok _ => by
            injection heq with h'; subst h'; simp at hok⟩
    | ok friends0 =>
      cases gf with
      | malformed =>
        exact ⟨by simp [handleFileChange, parseFailed], by simp,
          fun f' heq hmal => by injection heq with h'; subst h'; simp at hmal,
          fun f' friends heq hok hg => by
            injection heq with h'
            subst h'
            simp only at hok
            injection hok with h''
            subst h''
            simp [handleFileChange]⟩
      | ok gs0 =>
        exact ⟨by simp [handleFileChange, parseFailed], by simp,
          fun f' heq hmal => by injection heq with h'; subst h'; simp at hmal,
          fun f' friends heq hok hg => by
            injection heq with h'; subst h'; simp at hg⟩

/-- Witness for C8's amended theorem: malformed JSON leaves the state as it
was. -/
theorem handleFileChange_spec_witness :
    (handleFileChange ⟨[], []⟩ none).1 = ⟨[], []⟩ :=
  (handleFileChange_spec ⟨[], []⟩ none).2.1 rfl

/-- A row of the `user` table (the fields `inviteFriend` uses). -/
structure LUser where
  id : Nat
  email : String
  name : String
deriving DecidableEq, Repr

/-- `email.split('@')[0]`: the prefix of the address before the first '@'
(the whole address when it has no '@'). -/
def emailLocalPart (email : String) : String :=
  String.mk (email.data.takeWhile (fun ch => ch != '@'))

/-- `inviteFriend`: `db.user.findUnique({where: {email}})`; when found,
return the existing user (no row created); otherwise create exactly one user
whose email is the input and whose name is `email.split('@')[0]` (the new
row's id is its position, standing for the autoincrement key).  Returns the
procedure's result and the user table. -/
def inviteFriend (users : List LUser) (email : String) : LUser × List LUser :=
  match users.find? (fun u => u.email == email) with
  | some u => (u, users)
  | none =>
    let nu : LUser := ⟨users.length, email, emailLocalPart email⟩
    (nu, users ++ [nu])

/-- Claim C9: if a user with the given email exists, `inviteFriend` returns a
stored user with that email and creates no new row; otherwise it creates
exactly one new user whose email is the given address and whose name is the
part of the address before the '@'. -/
theorem inviteFriend_spec (users : List LUser) (email : String) :
    ((∃ u ∈ users, u.email = email) →
      (inviteFriend users email).2 = users ∧
        (inviteFriend users email).1 ∈ users ∧
        (inviteFriend users email).1.email = email) ∧
    ((∀ u ∈ users, u.email ≠ email) →
      (inviteFriend users email).2 = users ++ [(inviteFriend users email).1] ∧
        (inviteFriend users email).1.email = email ∧
        (inviteFriend users email).1.name = emailLocalPart email) := by
  cases h : users.find? (fun u => u.email == email) with
  | some u =>
    have hm := List.mem_of_find?_eq_some h
    have he : u.email = email := by simpa using List.find?_some h
    have e : inviteFriend users email = (u, users) := by
      unfold inviteFriend
      rw [h]
    constructor
    · intro _
      rw [e]
      exact ⟨rfl, hm, he⟩
    · intro hall
      exact absurd he (hall u hm)
  | none =>
    have hnone := List.find?_eq_none.mp h
    have e : inviteFriend users email =
        (⟨users.length, email, emailLocalPart email⟩,
          users ++ [⟨users.length, email, emailLocalPart email⟩]) := by
      unfold inviteFriend
      rw [h]
    constructor
    · rintro ⟨u, hu, he⟩
      exact absurd he (by simpa using hnone u hu)
    · intro _
      rw [e]
      exact ⟨rfl, rfl, rfl⟩

/-- Witness for C9: inviting a fresh email creates exactly one user with that
email and the local part as name. -/
theorem inviteFriend_spec_witness :
    (inviteFriend [] "ann@example.com").2 =
        [] ++ [(inviteFriend [] "ann@example.com").1] ∧
      (inviteFriend [] "ann@example.com").1.email = "ann@example.com" ∧
      (inviteFriend [] "ann@example.com").1.name = emailLocalPart "ann@example.com" :=
  (inviteFriend_spec [] "ann@example.com").2 (by simp)

/-- Swap the elements at positions i and j of an array, or `none` when either
index is out of bounds. -/
def swapOpt {α : Type _} (l : List α) (i j : Nat) : Option (List α) :=
  if hi : i < l.length then
    if hj : j < l.length then
      some ((l.set i (l.get ⟨j, hj⟩)).set j (l.get ⟨i, hi⟩))
    else none
  else none

/-- The loop of `shuffleArray`: `currentIndex` counts down from the length;
each iteration draws `randomIndex = Math.floor(Math.random() * currentIndex)`
(given by the draw function `rand` applied to the current `currentIndex`),
decrements `currentIndex`, and swaps `array[currentIndex]` with
`array[randomIndex]`. -/
def shuffleGo {α : Type _} (rand : Nat → Nat) : Nat → List α → Option (List α)
  | 0, l => some l
  | i + 1, l =>
    match swapOpt l i (rand (i + 1)) with
    | some l' => shuffleGo rand i l'
    | none => none

/-- `shuffleArray`: run the loop with `currentIndex` starting at the array
length. -/
def shuffleArray {α : Type _} (rand : Nat → Nat) (l : List α) : Option (List α) :=
  shuffleGo rand l.length l

theorem perm_getElem_cons_set {α : Type _} :
    ∀ (t : List α) (k : Nat) (hk : k < t.length) (a : α),
      List.Perm (t.get ⟨k, hk⟩ :: t.set k a) (a :: t)
  | b :: t', 0, _, a => by
      simpa using List.Perm.swap a b t'
  | b :: t', k + 1, hk, a => by
      have hk' : k < t'.length := by simpa using hk
      have step1 : List.Perm ((b :: t').get ⟨k + 1, hk⟩ :: (b :: t').set (k + 1) a)
          (b :: t'.get ⟨k, hk'⟩ :: t'.set k a) := by
        simpa using List.Perm.swap b (t'.get ⟨k, hk'⟩) (t'.set k a)
      have step2 : List.Perm (b :: t'.get ⟨k, hk'⟩ :: t'.set k a) (b :: a :: t') :=
        (perm_getElem_cons_set t' k hk' a).cons b
      have step3 : List.Perm (b :: a :: t') (a :: b :: t') := List.Perm.swap a b t'
      exact (step1.trans step2).trans step3

theorem set_set_swap_perm {α : Type _} :
    ∀ (l : List α) (i j : Nat) (hi : i < l.length) (hj : j < l.length),
      List.Perm ((l.set i (l.get ⟨j, hj⟩)).set j (l.get ⟨i, hi⟩)) l
  | _ :: _, 0, 0, _, _ => by simp
  | a :: t, 0, n + 1, _, hj => by
      simpa using perm_getElem_cons_set t n (by simpa using hj) a
  | a :: t, m + 1, 0, hi, _ => by
      simpa using perm_getElem_cons_set t m (by simpa using hi) a
  | a :: t, m + 1, n + 1, hi, hj => by
      have ih := set_set_swap_perm t m n (by simpa using hi) (by simpa using hj)
      simpa using ih.cons a

theorem swapOpt_perm {α : Type _} {l l' : List α} {i j : Nat}
    (h : swapOpt l i j = some l') : List.Perm l' l := by
  rw [swapOpt] at h
  split_ifs at h with hi hj
  · injection h with h'
    subst h'
    exact set_set_swap_perm l i j hi hj

theorem shuffleGo_perm {α : Type _} (rand : Nat → Nat) (hr : ∀ i, rand (i + 1) ≤ i) :
    ∀ (n : Nat) (l : List α), n ≤ l.length →
      ∃ l', shuffleGo rand n l = some l' ∧ List.Perm l' l
  | 0, l, _ => ⟨l, rfl, List.Perm.refl l⟩
  | i + 1, l, hn => by
      have hi : i < l.length := by omega
      have hj : rand (i + 1) < l.length := lt_of_le_of_lt (hr i) hi
      have hs : swapOpt l i (rand (i + 1)) =
          some ((l.set i (l.get ⟨rand (i + 1), hj⟩)).set (rand (i + 1)) (l.get ⟨i, hi⟩)) := by
        rw [swapOpt, dif_pos hi, dif_pos hj]
      obtain ⟨l', he, hp⟩ := shuffleGo_perm rand hr i
        ((l.set i (l.get ⟨rand (i + 1), hj⟩)).set (rand (i + 1)) (l.get ⟨i, hi⟩))
        (by simp; omega)
      refine ⟨l', ?_, hp.trans (set_set_swap_perm l i (rand (i + 1)) hi hj)⟩
      simp only [shuffleGo, hs]
      exact he

/-- Claim C10: for every array and every sequence of random index draws (each
`Math.floor(Math.random() * currentIndex)` is at most `currentIndex - 1`),
`shuffleArray` terminates with every index access in bounds (the run returns a
value rather than failing), and the result is a permutation of the original
contents: same length and same multiset of elements. -/
theorem shuffleArray_spec {α : Type _} (rand : Nat → Nat) (l : List α)
    (hr : ∀ i, rand (i + 1) ≤ i) :
    ∃ l', shuffleArray rand l = some l' ∧ List.Perm l' l ∧
      l'.length = l.length ∧ (l' : Multiset α) = (l : Multiset α) := by
  obtain ⟨l', h1, h2⟩ := shuffleGo_perm rand hr l.length l le_rfl
  exact ⟨l', h1, h2, h2.length_eq, Quot.sound h2⟩

/-- Witness for C10 with the draw sequence that always picks index 0. -/
theorem shuffleArray_spec_witness :
    ∃ l', shuffleArray (fun _ => 0) [10, 20, 30] = some l' ∧
      List.Perm l' [10, 20, 30] ∧ l'.length = ([10, 20, 30] : List Nat).length ∧
      (l' : Multiset Nat) = ([10, 20, 30] : Multiset Nat) :=
  shuffleArray_spec (fun _ => 0) [10, 20, 30] (fun i => Nat.zero_le i)

/-- Two rows share the same (userId, friendId, currency) key. -/
def sameKey (b b' : Balance) : Bool :=
  b'.userId == b.userId && b'.friendId == b.friendId && b'.currency == b.currency

/-- No two rows share a key (the table's unique constraint). -/
def distinctKeys : DbState → Bool
  | [] => true
  | b :: t => !(t.any (sameKey b)) && distinctKeys t

/-- The stored amount for a key: the sum of the matching rows (0 when the key
is absent). -/
def balanceAmount (s : DbState) (u f : Nat) (c : String) : Int :=
  ((s.filter (keyMatch u f c)).map Balance.amount).sum

theorem balanceAmount_cons (b : Balance) (t : DbState) (u f : Nat) (c : String) :
    balanceAmount (b :: t) u f c =
      (if keyMatch u f c b then b.amount else 0) + balanceAmount t u f c := by
  rw [balanceAmount, List.filter_cons]
  split_ifs <;> simp [balanceAmount]

theorem balanceAmount_append (s t : DbState) (u f : Nat) (c : String) :
    balanceAmount (s ++ t) u f c = balanceAmount s u f c + balanceAmount t u f c := by
  simp [balanceAmount, List.filter_append]

theorem sameKey_iff {b b' : Balance} :
    sameKey b b' = true ↔
      b'.userId = b.userId ∧ b'.friendId = b.friendId ∧ b'.currency = b.currency := by
  simp [sameKey, and_assoc]

theorem not_hasKey_of_distinct_head {b : Balance} {t : DbState} {u f : Nat} {c : String}
    (hb : t.any (sameKey b) = false) (hkb : keyMatch u f c b = true) :
    hasKey t u f c = false := by
  by_contra hcon
  have hk : hasKey t u f c = true := by simpa using hcon
  rw [hasKey, List.any_eq_true] at hk
  obtain ⟨p, hp, hkp⟩ := hk
  rw [keyMatch_iff] at hkb hkp
  have : t.any (sameKey b) = true :=
    List.any_eq_true.mpr ⟨p, hp, sameKey_iff.mpr ⟨by omega, by omega,
      by rw [hkp.2.2, hkb.2.2]⟩⟩
  simp [this] at hb

theorem sameKey_updAdd (u f : Nat) (c : String) (d : Int) (b p : Balance) :
    sameKey (updAdd u f c d b) (updAdd u f c d p) = sameKey b p := by
  simp [sameKey, updAdd_userId, updAdd_friendId, updAdd_currency]

theorem distinctKeys_map_updAdd (u f : Nat) (c : String) (d : Int) :
    ∀ (s : DbState), distinctKeys (s.map (updAdd u f c d)) = distinctKeys s
  | [] => rfl
  | b :: t => by
    rw [List.map_cons, distinctKeys, distinctKeys, distinctKeys_map_updAdd u f c d t,
      List.any_map]
    have : (fun p => sameKey (updAdd u f c d b) (updAdd u f c d p)) = sameKey b := by
      funext p
      exact sameKey_updAdd u f c d b p
    rw [show (sameKey (updAdd u f c d b) ∘ updAdd u f c d) = sameKey b from this]

theorem distinctKeys_append_new {s : DbState} {u f : Nat} {c : String} (d : Int)
    (hd : distinctKeys s = true) (hk : hasKey s u f c = false) :
    distinctKeys (s ++ [⟨u, f, c, d⟩]) = true := by
  induction s with
  | nil => simp [distinctKeys]
  | cons b t ih =>
    rw [distinctKeys] at hd
    simp only [Bool.and_eq_true, Bool.not_eq_true'] at hd
    have hkb : keyMatch u f c b = false := by
      by_contra hcon
      have : keyMatch u f c b = true := by simpa using hcon
      have : hasKey (b :: t) u f c = true :=
        List.any_eq_true.mpr ⟨b, List.mem_cons_self b t, this⟩
      simp [this] at hk
    have hkt : hasKey t u f c = false := by
      rw [hasKey, List.any_cons] at hk
      simp only [Bool.or_eq_false_iff] at hk
      exact hk.2
    rw [List.cons_append, distinctKeys, ih hd.2 hkt, List.any_append]
    simp only [hd.1, Bool.false_or, Bool.and_true]
    simp only [List.any_cons, List.any_nil, Bool.or_false, Bool.not_eq_true']
    by_contra hcon
    have hsk : sameKey b ⟨u, f, c, d⟩ = true := by simpa using hcon
    rw [sameKey_iff] at hsk
    simp only at hsk
    have : keyMatch u f c b = true :=
      keyMatch_iff.mpr ⟨hsk.1.symm, hsk.2.1.symm, hsk.2.2.symm⟩
    simp [this] at hkb

theorem distinctKeys_addDelta {s : DbState} (u f : Nat) (c : String) (d : Int)
    (hd : distinctKeys s = true) : distinctKeys (addDelta s u f c d) = true := by
  rw [addDelta_eq]
  by_cases hk : hasKey s u f c = true
  · rw [if_pos hk, distinctKeys_map_updAdd]
    exact hd
  · have hk0 : hasKey s u f c = false := by simpa using hk
    rw [if_neg (by simp [hk0])]
    exact distinctKeys_append_new d hd hk0

theorem balanceAmount_map_updAdd (u f u' f' : Nat) (c c' : String) (d : Int) :
    ∀ (s : DbState), distinctKeys s = true →
      balanceAmount (s.map (updAdd u f c d)) u' f' c' =
        balanceAmount s u' f' c' +
          (if (u = u' ∧ f = f' ∧ c = c') ∧ hasKey s u f c = true then d else 0)
  | [], _ => by simp [balanceAmount, hasKey]
  | b :: t, hd => by
    rw [distinctKeys] at hd
    simp only [Bool.and_eq_true, Bool.not_eq_true'] at hd
    obtain ⟨hb, hdt⟩ := hd
    rw [List.map_cons, balanceAmount_cons, balanceAmount_cons, keyMatch_updAdd]
    by_cases hKb : keyMatch u f c b = true
    · have hkt : hasKey t u f c = false := not_hasKey_of_distinct_head hb hKb
      have hmap : t.map (updAdd u f c d) = t := map_updAdd_id d hkt
      rw [hmap]
      have hkey : hasKey (b :: t) u f c = true :=
        List.any_eq_true.mpr ⟨b, List.mem_cons_self b t, hKb⟩
      by_cases htrip : u = u' ∧ f = f' ∧ c = c'
      · have hKb' : keyMatch u' f' c' b = true := by
          rw [keyMatch_iff] at hKb ⊢
          exact ⟨htrip.1 ▸ hKb.1, htrip.2.1 ▸ hKb.2.1, htrip.2.2 ▸ hKb.2.2⟩
        rw [if_pos hKb', if_pos hKb', if_pos ⟨htrip, hkey⟩, updAdd_amount, if_pos hKb]
        omega
      · have hKb' : keyMatch u' f' c' b = false := by
          by_contra hcon
          have h2 : keyMatch u' f' c' b = true := by simpa using hcon
          rw [keyMatch_iff] at hKb h2
          exact htrip ⟨by omega, by omega, by rw [← hKb.2.2, h2.2.2]⟩
        rw [if_neg (by simp [hKb']), if_neg (by simp [hKb']),
          if_neg (by simp [htrip])]
        simp
    · have hKbf : keyMatch u f c b = false := by simpa using hKb
      have hupd : updAdd u f c d b = b := by simp [updAdd, hKbf]
      rw [hupd, balanceAmount_map_updAdd u f u' f' c c' d t hdt]
      have : hasKey (b :: t) u f c = hasKey t u f c := by
        rw [hasKey, List.any_cons, hKbf, Bool.false_or, hasKey]
      rw [this]
      omega

theorem balanceAmount_addDelta {s : DbState} (u f u' f' : Nat) (c c' : String) (d : Int)
    (hd : distinctKeys s = true) :
    balanceAmount (addDelta s u f c d) u' f' c' =
      balanceAmount s u' f' c' + (if u = u' ∧ f = f' ∧ c = c' then d else 0) := by
  rw [addDelta_eq]
  by_cases hk : hasKey s u f c = true
  · rw [if_pos hk, balanceAmount_map_updAdd u f u' f' c c' d s hd]
    congr 1
    by_cases htrip : u = u' ∧ f = f' ∧ c = c'
    · obtain ⟨h1, h2, h3⟩ := htrip
      subst h1; subst h2; subst h3
      simp [hk]
    · simp [htrip]
  · rw [if_neg hk, balanceAmount_append]
    congr 1
    rw [balanceAmount_cons]
    by_cases htrip : u = u' ∧ f = f' ∧ c = c'
    · obtain ⟨h1, h2, h3⟩ := htrip
      subst h1; subst h2; subst h3
      simp [keyMatch, balanceAmount]
    · have hkm : keyMatch u' f' c' (⟨u, f, c, d⟩ : Balance) = false := by
        by_contra hcon
        have h2 : keyMatch u' f' c' (⟨u, f, c, d⟩ : Balance) = true := by simpa using hcon
        rw [keyMatch_iff] at h2
        simp only at h2
        exact htrip h2
      simp [hkm, htrip, balanceAmount]

theorem balanceAmount_applyMirrorDelta {s : DbState} (u f u' f' : Nat) (c c' : String)
    (d : Int) (hd : distinctKeys s = true) :
    balanceAmount (applyMirrorDelta s u f c d) u' f' c' =
      balanceAmount s u' f' c' + (if u = u' ∧ f = f' ∧ c = c' then d else 0) +
        (if f = u' ∧ u = f' ∧ c = c' then -d else 0) := by
  rw [applyMirrorDelta,
    balanceAmount_addDelta f u u' f' c c' (-d) (distinctKeys_addDelta u f c d hd),
    balanceAmount_addDelta u f u' f' c c' d hd]

theorem distinctKeys_applyMirrorDelta {s : DbState} (u f : Nat) (c : String) (d : Int)
    (hd : distinctKeys s = true) : distinctKeys (applyMirrorDelta s u f c d) = true :=
  distinctKeys_addDelta f u c (-d) (distinctKeys_addDelta u f c d hd)

/-- A row of the `expenseParticipant` table: the participant's owed share of
the expense. -/
structure ExpenseParticipant where
  expenseId : String
  userId : Nat
  amount : Int
deriving DecidableEq, Repr

/-- A row of the `expense` table (the fields deletion uses). -/
structure Expense where
  id : String
  paidBy : Nat
  currency : String
  deletedBy : Option Nat
deriving DecidableEq, Repr

/-- The application state touched by `deleteExpense`. -/
structure AppState where
  expenses : List Expense
  participants : List ExpenseParticipant
  balances : DbState
deriving DecidableEq, Repr

/-- Modelled from the spec: the splitService `deleteExpense` (not in the
sampled source): soft-delete the expense, recording the deleting user, and
reverse the expense's balance contribution unconditionally by applying the
negated share of every participant other than the payer as a mirrored delta
in the expense's currency. -/
def deleteExpenseService (st : AppState) (eid : String) (uid : Nat) : AppState :=
  match st.expenses.find? (fun e => e.id == eid) with
  | none => st
  | some e =>
    { st with
      expenses := st.expenses.map (fun e' =>
        if e'.id == eid then { e' with deletedBy := some uid } else e'),
      balances :=
        ((st.participants.filter (fun p => p.expenseId == eid)).filter
            (fun p => p.userId != e.paidBy)).foldl
          (fun acc p => applyMirrorDelta acc e.paidBy p.userId e.currency (-p.amount))
          st.balances }

/-- `deleteExpense` (router): look up the `expenseParticipant` row for
(expenseId, acting user); when absent throw UNAUTHORIZED ("You are not the
participant of the expense"); otherwise run the service deletion. -/
def deleteExpenseRoute (st : AppState) (eid : String) (uid : Nat) :
    Option TrpcCode × AppState :=
  match st.participants.find? (fun p => p.expenseId == eid && p.userId == uid) with
  | none => (some .unauthorized, st)
  | some _ => (none, deleteExpenseService st eid uid)

/-- The total delta the expense contributed to the (u, f, c) balance row:
its share on (payer, participant) and the negated share on
(participant, payer), for every participant other than the payer, in the
expense's currency. -/
def contribAmount (e : Expense) (parts : List ExpenseParticipant)
    (u f : Nat) (c : String) : Int :=
  ((parts.filter (fun p => p.userId != e.paidBy)).map (fun p =>
      (if e.paidBy = u ∧ p.userId = f ∧ e.currency = c then p.amount else 0) +
        (if p.userId = u ∧ e.paidBy = f ∧ e.currency = c then -p.amount else 0))).sum

theorem balanceAmount_fold (payer : Nat) (ccy : String) (u f : Nat) (c : String) :
    ∀ (ps : List ExpenseParticipant) (s : DbState), distinctKeys s = true →
      balanceAmount
          (ps.foldl (fun acc p => applyMirrorDelta acc payer p.userId ccy (-p.amount)) s)
          u f c =
        balanceAmount s u f c -
          (ps.map (fun p =>
            (if payer = u ∧ p.userId = f ∧ ccy = c then p.amount else 0) +
              (if p.userId = u ∧ payer = f ∧ ccy = c then -p.amount else 0))).sum
  | [], _, _ => by simp
  | p :: ps, s, hd => by
    rw [List.foldl_cons, balanceAmount_fold payer ccy u f c ps _
      (distinctKeys_applyMirrorDelta payer p.userId ccy (-p.amount) hd),
      balanceAmount_applyMirrorDelta payer p.userId u f ccy c (-p.amount) hd,
      List.map_cons, List.sum_cons]
    have e1 : (if payer = u ∧ p.userId = f ∧ ccy = c then -p.amount else 0) =
        -(if payer = u ∧ p.userId = f ∧ ccy = c then p.amount else 0) := by
      split_ifs <;> simp
    have e2 : (if p.userId = u ∧ payer = f ∧ ccy = c then -(-p.amount) else 0) =
        -(if p.userId = u ∧ payer = f ∧ ccy = c then -p.amount else 0) := by
      split_ifs <;> simp
    rw [e1, e2]
    omega

theorem distinctKeys_fold (payer : Nat) (ccy : String) :
    ∀ (ps : List ExpenseParticipant) (s : DbState), distinctKeys s = true →
      distinctKeys
        (ps.foldl (fun acc p => applyMirrorDelta acc payer p.userId ccy (-p.amount)) s)
        = true
  | [], _, hd => hd
  | p :: ps, _, hd =>
    distinctKeys_fold payer ccy ps _
      (distinctKeys_applyMirrorDelta payer p.userId ccy (-p.amount) hd)

/-- Claim C5: `deleteExpense` fails with UNAUTHORIZED iff the acting user is
not a participant of the expense; on failure the state is unchanged; on
success every stored expense row with that id is soft-deleted (deletedBy set
to the acting user) and the balance contribution of the expense is reversed:
every (u, f, c) stored total decreases by exactly the expense's contribution
to it. -/
theorem deleteExpense_spec (st : AppState) (eid : String) (uid : Nat)
    (hd : distinctKeys st.balances = true) :
    ((deleteExpenseRoute st eid uid).1 = some TrpcCode.unauthorized ↔
      ¬ ∃ p ∈ st.participants, p.expenseId = eid ∧ p.userId = uid) ∧
    ((deleteExpenseRoute st eid uid).1 ≠ none → (deleteExpenseRoute st eid uid).2 = st) ∧
    ((deleteExpenseRoute st eid uid).1 = none →
      (∀ e' ∈ (deleteExpenseRoute st eid uid).2.expenses, e'.id = eid →
        e'.deletedBy = some uid) ∧
      (∀ e, st.expenses.find? (fun x => x.id == eid) = some e →
        ∀ u f c, balanceAmount (deleteExpenseRoute st eid uid).2.balances u f c =
          balanceAmount st.balances u f c -
            contribAmount e (st.participants.filter (fun p => p.expenseId == eid)) u f c)) := by
  cases hpart : st.participants.find? (fun p => p.expenseId == eid && p.userId == uid) with
  | none =>
    have e0 : deleteExpenseRoute st eid uid = (some .unauthorized, st) := by
      rw [deleteExpenseRoute, hpart]
    rw [e0]
    have hnone := List.find?_eq_none.mp hpart
    refine ⟨iff_of_true rfl ?_, fun _ => rfl, fun hno => Option.noConfusion hno⟩
    rintro ⟨p, hp, h1, h2⟩
    exact absurd (by simp [h1, h2]) (hnone p hp)
  | some p0 =>
    have e0 : deleteExpenseRoute st eid uid = (none, deleteExpenseService st eid uid) := by
      rw [deleteExpenseRoute, hpart]
    rw [e0]
    have hp0 := List.find?_some hpart
    simp only [Bool.and_eq_true, beq_iff_eq] at hp0
    refine ⟨iff_of_false (by simp) ?_, fun hne => absurd rfl hne, fun _ => ?_⟩
    · intro hno
      exact hno ⟨p0, List.mem_of_find?_eq_some hpart, hp0.1, hp0.2⟩
    · constructor
      · intro e' he' hid
        cases hfe : st.expenses.find? (fun e => e.id == eid) with
        | none =>
          have := List.find?_eq_none.mp hfe e'
          rw [deleteExpenseService, hfe] at he'
          simp only at he'
          exact absurd (by simp [hid]) (this he')
        | some e =>
          rw [deleteExpenseService, hfe] at he'
          simp only [List.mem_map] at he'
          obtain ⟨e0', he0', heq⟩ := he'
          by_cases hide : e0'.id = eid
          · rw [← heq, if_pos (show (e0'.id == eid) = true by simp [hide])]
          · rw [← heq] at hid
            rw [if_neg (show ¬((e0'.id == eid) = true) by simp [hide])] at hid
            exact absurd hid hide
      · intro e hfe u f c
        rw [deleteExpenseService, hfe]
        simp only
        rw [balanceAmount_fold e.paidBy e.currency u f c
          ((st.participants.filter (fun p => p.expenseId == eid)).filter
            (fun p => p.userId != e.paidBy)) st.balances hd]
        rw [contribAmount]

/-- Witness for C5: a participant deletes a two-person expense; the stored
(payer, participant, USD) total drops by exactly the expense's contribution. -/
theorem deleteExpense_spec_witness :
    (deleteExpenseRoute
        ⟨[⟨"e1", 1, "USD", none⟩], [⟨"e1", 1, 0⟩, ⟨"e1", 2, 5⟩],
          [⟨1, 2, "USD", 5⟩, ⟨2, 1, "USD", -5⟩]⟩ "e1" 2).1 = none ∧
    balanceAmount
        (deleteExpenseRoute
          ⟨[⟨"e1", 1, "USD", none⟩], [⟨"e1", 1, 0⟩, ⟨"e1", 2, 5⟩],
            [⟨1, 2, "USD", 5⟩, ⟨2, 1, "USD", -5⟩]⟩ "e1" 2).2.balances 1 2 "USD" =
      balanceAmount [⟨1, 2, "USD", 5⟩, ⟨2, 1, "USD", -5⟩] 1 2 "USD" -
        contribAmount ⟨"e1", 1, "USD", none⟩
          (List.filter (fun p => p.expenseId == "e1")
            [⟨"e1", 1, 0⟩, ⟨"e1", 2, 5⟩]) 1 2 "USD" := by
  refine ⟨by decide, ?_⟩
  exact ((deleteExpense_spec
      ⟨[⟨"e1", 1, "USD", none⟩], [⟨"e1", 1, 0⟩, ⟨"e1", 2, 5⟩],
        [⟨1, 2, "USD", 5⟩, ⟨2, 1, "USD", -5⟩]⟩ "e1" 2 (by decide)).2.2 (by decide)).2
    ⟨"e1", 1, "USD", none⟩ (by decide) 1 2 "USD"

/-- Numeric value of a digit string (the external amounts are decimal
strings; the exact numeric interpretation is irrelevant to the claims, which
only need a fixed deterministic conversion). -/
def digitsVal (l : List Char) : Nat :=
  l.foldl (fun acc ch => acc * 10 + (ch.toNat - 48)) 0

/-- Modelled from the spec: conversion of an external amount string to the
ledger's integer representation (deterministic; a leading '-' negates). -/
def parseAmount (a : String) : Int :=
  match a.data with
  | '-' :: rest => -(Int.ofNat (digitsVal rest))
  | l => Int.ofNat (digitsVal l)

/-- The row update performed by a set-write when the key is present. -/
def updSet (u f : Nat) (c : String) (v : Int) (b : Balance) : Balance :=
  if keyMatch u f c b then { b with amount := v } else b

/-- Modelled from the spec: the import's balance write: set the
(userId, friendId, currency) row to exactly the external amount, updating in
place when present and inserting otherwise (so re-imports do not duplicate
rows). -/
def setAmount (s : DbState) (u f : Nat) (c : String) (v : Int) : DbState :=
  if hasKey s u f c then s.map (updSet u f c v) else s ++ [⟨u, f, c, v⟩]

/-- One mirrored-balance write of the import. -/
structure BWrite where
  u : Nat
  f : Nat
  c : String
  v : Int
deriving DecidableEq, Repr

/-- Whether a write targets the key (u, f, c). -/
def wkey (u f : Nat) (c : String) (w : BWrite) : Bool :=
  w.u == u && w.f == f && w.c == c

def applyWrite (s : DbState) (w : BWrite) : DbState :=
  setAmount s w.u w.f w.c w.v

def applyWrites (s : DbState) (ws : List BWrite) : DbState :=
  ws.foldl applyWrite s

/-- The value of the last write in the list targeting the key, if any. -/
def lastVal (u f : Nat) (c : String) : List BWrite → Option Int
  | [] => none
  | w :: t =>
    match lastVal u f c t with
    | some v => some v
    | none => if wkey u f c w then some w.v else none

theorem keyMatch_updSet (u f u' f' : Nat) (c c' : String) (v : Int) (b : Balance) :
    keyMatch u' f' c' (updSet u f c v b) = keyMatch u' f' c' b := by
  unfold updSet
  split <;> simp [keyMatch]

theorem hasKey_map_updSet (s : DbState) (u f u' f' : Nat) (c c' : String) (v : Int) :
    hasKey (s.map (updSet u f c v)) u' f' c' = hasKey s u' f' c' := by
  simp only [hasKey, List.any_map]
  congr 1
  funext b
  exact keyMatch_updSet u f u' f' c c' v b

theorem hasKey_setAmount (s : DbState) (u f u' f' : Nat) (c c' : String) (v : Int) :
    hasKey (setAmount s u f c v) u' f' c' =
      (hasKey s u' f' c' || keyMatch u' f' c' ⟨u, f, c, v⟩) := by
  rw [setAmount]
  by_cases hk : hasKey s u f c = true
  · rw [if_pos hk, hasKey_map_updSet]
    by_cases hkm : keyMatch u' f' c' (⟨u, f, c, v⟩ : Balance) = true
    · rw [keyMatch_iff] at hkm
      simp only at hkm
      have : hasKey s u' f' c' = true := by
        rw [← hkm.1, ← hkm.2.1, ← hkm.2.2]
        exact hk
      simp [this]
    · simp [show keyMatch u' f' c' (⟨u, f, c, v⟩ : Balance) = false by
        simpa using hkm]
  · rw [if_neg hk, hasKey, List.any_append, hasKey]
    simp [hasKey]

theorem hasKey_applyWrite_mono {s : DbState} {u f : Nat} {c : String} (w : BWrite)
    (h : hasKey s u f c = true) : hasKey (applyWrite s w) u f c = true := by
  rw [applyWrite, hasKey_setAmount, h]
  rfl

theorem hasKey_applyWrites_mono {u f : Nat} {c : String} :
    ∀ (ws : List BWrite) (s : DbState), hasKey s u f c = true →
      hasKey (applyWrites s ws) u f c = true
  | [], _, h => h
  | w :: t, s, h =>
    hasKey_applyWrites_mono t (applyWrite s w) (hasKey_applyWrite_mono w h)

theorem hasKey_setAmount_self (s : DbState) (u f : Nat) (c : String) (v : Int) :
    hasKey (setAmount s u f c v) u f c = true := by
  rw [hasKey_setAmount]
  simp [keyMatch]

theorem applyWrites_hasKey_of_mem {w : BWrite} :
    ∀ (ws : List BWrite) (s : DbState), w ∈ ws →
      hasKey (applyWrites s ws) w.u w.f w.c = true
  | w' :: t, s, hm => by
    rcases List.mem_cons.mp hm with heq | ht
    · subst heq
      exact hasKey_applyWrites_mono t (applyWrite s w)
        (hasKey_setAmount_self s w.u w.f w.c w.v)
    · exact applyWrites_hasKey_of_mem t (applyWrite s w') ht

theorem keyMatch_of_both {u f u2 f2 : Nat} {c c2 : String} {b : Balance}
    (h1 : keyMatch u f c b = true) (h2 : keyMatch u2 f2 c2 b = true) :
    u = u2 ∧ f = f2 ∧ c = c2 := by
  rw [keyMatch_iff] at h1 h2
  exact ⟨by omega, by omega, by rw [← h1.2.2, h2.2.2]⟩

theorem applyWrites_untouched {u f : Nat} {c : String} {v : Int} :
    ∀ (ws : List BWrite) (s : DbState), lastVal u f c ws = none →
      (∀ b ∈ s, keyMatch u f c b = true → b.amount = v) →
      ∀ b ∈ applyWrites s ws, keyMatch u f c b = true → b.amount = v
  | [], _, _, hall => hall
  | w :: t, s, hnone, hall => by
    rw [lastVal] at hnone
    cases hlv : lastVal u f c t with
    | some v' =>
      rw [hlv] at hnone
      simp at hnone
    | none =>
      rw [hlv] at hnone
      simp only at hnone
      have hw : wkey u f c w = false := by
        by_contra hcon
        have hw' : wkey u f c w = true := by simpa using hcon
        rw [if_pos hw'] at hnone
        simp at hnone
      refine applyWrites_untouched t (applyWrite s w) hlv ?_
      intro b hb hkb
      rw [applyWrite, setAmount] at hb
      by_cases hk : hasKey s w.u w.f w.c = true
      · rw [if_pos hk] at hb
        rw [List.mem_map] at hb
        obtain ⟨b0, hb0, rfl⟩ := hb
        rw [keyMatch_updSet] at hkb
        have hne : keyMatch w.u w.f w.c b0 = false := by
          by_contra hcon
          have h2 : keyMatch w.u w.f w.c b0 = true := by simpa using hcon
          obtain ⟨e1, e2, e3⟩ := keyMatch_of_both hkb h2
          rw [wkey] at hw
          rw [e1, e2, e3] at hw
          simp at hw
        rw [updSet, if_neg (by simp [hne])]
        exact hall b0 hb0 hkb
      · rw [if_neg hk] at hb
        rcases List.mem_append.mp hb with hbs | hbnew
        · exact hall b hbs hkb
        · simp only [List.mem_singleton] at hbnew
          subst hbnew
          rw [keyMatch_iff] at hkb
          simp only at hkb
          rw [wkey] at hw
          rw [← hkb.1, ← hkb.2.1, ← hkb.2.2] at hw
          simp at hw

theorem applyWrites_final {u f : Nat} {c : String} :
    ∀ (ws : List BWrite) (s : DbState) (v : Int), lastVal u f c ws = some v →
      ∀ b ∈ applyWrites s ws, keyMatch u f c b = true → b.amount = v
  | [], _, v, hlv => by
    rw [lastVal] at hlv
    exact absurd hlv (by simp)
  | w :: t, s, v, hlv => by
    rw [lastVal] at hlv
    cases hlv2 : lastVal u f c t with
    | some v' =>
      rw [hlv2] at hlv
      simp only at hlv
      injection hlv with hv
      rw [← hv]
      exact applyWrites_final t (applyWrite s w) v' hlv2
    | none =>
      rw [hlv2] at hlv
      simp only at hlv
      by_cases hw : wkey u f c w = true
      · rw [if_pos hw] at hlv
        injection hlv with hv
        refine applyWrites_untouched t (applyWrite s w) hlv2 ?_
        intro b hb hkb
        rw [wkey] at hw
        simp only [Bool.and_eq_true, beq_iff_eq] at hw
        rw [applyWrite, setAmount] at hb
        by_cases hk : hasKey s w.u w.f w.c = true
        · rw [if_pos hk] at hb
          rw [List.mem_map] at hb
          obtain ⟨b0, hb0, rfl⟩ := hb
          rw [keyMatch_updSet] at hkb
          have hkb0 : keyMatch w.u w.f w.c b0 = true := by
            rw [keyMatch_iff] at hkb ⊢
            exact ⟨by omega, by omega, by rw [hkb.2.2, hw.2]⟩
          rw [updSet, if_pos hkb0]
          exact hv
        · rw [if_neg hk] at hb
          rcases List.mem_append.mp hb with hbs | hbnew
          · have : hasKey s w.u w.f w.c = true := by
              refine List.any_eq_true.mpr ⟨b, hbs, ?_⟩
              rw [keyMatch_iff] at hkb ⊢
              exact ⟨by omega, by omega, by rw [hkb.2.2, hw.2]⟩
            exact absurd this hk
          · simp only [List.mem_singleton] at hbnew
            subst hbnew
            exact hv
      · rw [if_neg hw] at hlv
        exact absurd hlv (by simp)

/-- The cumulative effect of a write list on one row (the last write to the
row's key wins). -/
def rowUpd (ws : List BWrite) (b : Balance) : Balance :=
  match lastVal b.userId b.friendId b.currency ws with
  | some v => { b with amount := v }
  | none => b

theorem rowUpd_cons (w : BWrite) (ws : List BWrite) (b : Balance) :
    rowUpd (w :: ws) b =
      match lastVal b.userId b.friendId b.currency ws with
      | some v => { b with amount := v }
      | none =>
        if wkey b.userId b.friendId b.currency w then { b with amount := w.v } else b := by
  rw [rowUpd, lastVal]
  cases lastVal b.userId b.friendId b.currency ws with
  | some v => rfl
  | none =>
    by_cases hw : wkey b.userId b.friendId b.currency w = true
    · rw [if_pos hw, if_pos hw]
    · rw [if_neg hw, if_neg hw]

theorem rowUpd_updSet (w : BWrite) (ws : List BWrite) (b : Balance) :
    rowUpd ws (updSet w.u w.f w.c w.v b) = rowUpd (w :: ws) b := by
  by_cases hkb : keyMatch w.u w.f w.c b = true
  · have hproj : updSet w.u w.f w.c w.v b = { b with amount := w.v } := by
      rw [updSet, if_pos hkb]
    rw [hproj, rowUpd_cons, rowUpd]
    simp only
    cases hlv : lastVal b.userId b.friendId b.currency ws with
    | some v => simp only [hlv]
    | none =>
      simp only [hlv]
      have hw : wkey b.userId b.friendId b.currency w = true := by
        rw [keyMatch_iff] at hkb
        simp [wkey, hkb.1, hkb.2.1, hkb.2.2]
      rw [if_pos hw]
  · have hproj : updSet w.u w.f w.c w.v b = b := by
      rw [updSet, if_neg (by simpa using hkb)]
    rw [hproj, rowUpd_cons, rowUpd]
    cases hlv : lastVal b.userId b.friendId b.currency ws with
    | some v => simp only [hlv]
    | none =>
      simp only [hlv]
      have hw : wkey b.userId b.friendId b.currency w = false := by
        by_contra hcon
        have h2 : wkey b.userId b.friendId b.currency w = true := by simpa using hcon
        rw [wkey] at h2
        simp only [Bool.and_eq_true, beq_iff_eq] at h2
        exact absurd (keyMatch_iff.mpr ⟨h2.1.1.symm, h2.1.2.symm, h2.2.symm⟩)
          (by simpa using hkb)
      rw [if_neg (by simp [hw])]

theorem applyWrites_of_keys_present :
    ∀ (ws : List BWrite) (s : DbState),
      (∀ w ∈ ws, hasKey s w.u w.f w.c = true) →
      applyWrites s ws = s.map (rowUpd ws)
  | [], s, _ => by
    have e : s.map (rowUpd []) = s.map id := List.map_congr_left (fun b _ => rfl)
    rw [applyWrites, List.foldl_nil, e, List.map_id]
  | w :: t, s, hks => by
    have hw : hasKey s w.u w.f w.c = true := hks w (List.mem_cons_self w t)
    have e1 : applyWrite s w = s.map (updSet w.u w.f w.c w.v) := by
      rw [applyWrite, setAmount, if_pos hw]
    have hks' : ∀ x ∈ t, hasKey (applyWrite s w) x.u x.f x.c = true := by
      intro x hx
      rw [e1, hasKey_map_updSet]
      exact hks x (List.mem_cons_of_mem w hx)
    rw [applyWrites, List.foldl_cons,
      show List.foldl applyWrite (applyWrite s w) t = applyWrites (applyWrite s w) t
        from rfl,
      applyWrites_of_keys_present t (applyWrite s w) hks', e1, List.map_map]
    apply List.map_congr_left
    intro b _
    exact rowUpd_updSet w t b

theorem applyWrites_idem (s : DbState) (ws : List BWrite) :
    applyWrites (applyWrites s ws) ws = applyWrites s ws := by
  have hkeys : ∀ w ∈ ws, hasKey (applyWrites s ws) w.u w.f w.c = true :=
    fun w hw => applyWrites_hasKey_of_mem ws s hw
  rw [applyWrites_of_keys_present ws (applyWrites s ws) hkeys]
  have hid : ∀ b ∈ applyWrites s ws, rowUpd ws b = b := by
    intro b hb
    rw [rowUpd]
    cases hlv : lastVal b.userId b.friendId b.currency ws with
    | none => simp only [hlv]
    | some v =>
      simp only [hlv]
      have hbv : b.amount = v :=
        applyWrites_final ws s v hlv b hb (by simp [keyMatch])
      cases b
      simp only at hbv ⊢
      rw [hbv]
  have e : (applyWrites s ws).map (rowUpd ws) = (applyWrites s ws).map id :=
    List.map_congr_left (fun b hb => hid b hb)
  rw [e, List.map_id]

/-- A local group row created by the import: `localId` is the autoincrement
key (its position) and `splitwiseId` the external group id it is matched on. -/
structure LGroup where
  localId : Nat
  splitwiseId : Nat
  name : String
deriving DecidableEq, Repr

/-- The store touched by the Splitwise import. -/
structure ImportState where
  users : List LUser
  balances : DbState
  groups : List LGroup
  memberships : List (Nat × Nat)
deriving DecidableEq, Repr

/-- Modelled from the spec: find a local user by email, creating one when
absent (id = position, standing for the autoincrement key; name = the local
part of the email).  Returns the user's id and the updated table. -/
def findOrCreateUser (users : List LUser) (email : String) : Nat × List LUser :=
  match users.find? (fun u => u.email == email) with
  | some u => (u.id, users)
  | none => (users.length, users ++ [⟨users.length, email, emailLocalPart email⟩])

/-- The mirrored balance writes for one external friend with known local user
id: (acting, friend, currency) is set to the external amount and
(friend, acting, currency) to its negation. -/
def friendWrites (actingId uid : Nat) (fr : SplitwiseUser) : List BWrite :=
  (fr.balance.map (fun ent =>
    [⟨actingId, uid, ent.currency_code, parseAmount ent.amount⟩,
     ⟨uid, actingId, ent.currency_code, -(parseAmount ent.amount)⟩])).flatten

/-- Modelled from the spec: process the friends list in order: find-or-create
each friend's local user by email, and emit its mirrored balance writes.  The
user-table effect and the balance writes commute, so the writes are collected
and then applied in processing order. -/
def planFriends (actingId : Nat) (users : List LUser) :
    List SplitwiseUser → List LUser × List BWrite
  | [] => (users, [])
  | fr :: fs =>
    ((planFriends actingId (findOrCreateUser users fr.email).2 fs).1,
      friendWrites actingId (findOrCreateUser users fr.email).1 fr ++
        (planFriends actingId (findOrCreateUser users fr.email).2 fs).2)

/-- Modelled from the spec: `importUserBalanceFromSplitWise`: create or reuse
a local user per external friend (matched by email) and set the mirrored
balance rows to the external amounts. -/
def importUserBalance (actingId : Nat) (st : ImportState)
    (friends : List SplitwiseUser) : ImportState :=
  { st with
    users := (planFriends actingId st.users friends).1,
    balances := applyWrites st.balances (planFriends actingId st.users friends).2 }

theorem find?_append_of_some {α : Type _} {p : α → Bool} {l rest : List α} {a : α}
    (h : l.find? p = some a) : (l ++ rest).find? p = some a := by
  rw [List.find?_append, h]
  rfl

theorem findOrCreateUser_users_extend (users : List LUser) (email : String) :
    ∃ d, (findOrCreateUser users email).2 = users ++ d := by
  rw [findOrCreateUser]
  cases users.find? (fun u => u.email == email) with
  | some u => exact ⟨[], by simp⟩
  | none => exact ⟨[⟨users.length, email, emailLocalPart email⟩], rfl⟩

theorem findOrCreateUser_stable (users rest : List LUser) (email : String) :
    findOrCreateUser ((findOrCreateUser users email).2 ++ rest) email =
      ((findOrCreateUser users email).1, (findOrCreateUser users email).2 ++ rest) := by
  cases h : users.find? (fun u => u.email == email) with
  | some u =>
    have e : findOrCreateUser users email = (u.id, users) := by
      rw [findOrCreateUser, h]
    rw [e]
    simp only
    rw [findOrCreateUser, find?_append_of_some h]
  | none =>
    have e : findOrCreateUser users email =
        (users.length, users ++ [⟨users.length, email, emailLocalPart email⟩]) := by
      rw [findOrCreateUser, h]
    rw [e]
    simp only
    rw [findOrCreateUser]
    have hfind : ((users ++ [(⟨users.length, email, emailLocalPart email⟩ : LUser)]) ++
          rest).find? (fun u => u.email == email) =
          some (⟨users.length, email, emailLocalPart email⟩ : LUser) := by
      apply find?_append_of_some
      rw [List.find?_append, h, Option.none_or]
      rw [List.find?_cons_of_pos _ (by simp)]
    rw [hfind]

theorem planFriends_users_extend (a : Nat) :
    ∀ (fs : List SplitwiseUser) (users : List LUser),
      ∃ d, (planFriends a users fs).1 = users ++ d
  | [], users => ⟨[], by simp [planFriends]⟩
  | fr :: fs, users => by
    obtain ⟨d1, h1⟩ := findOrCreateUser_users_extend users fr.email
    obtain ⟨d2, h2⟩ := planFriends_users_extend a fs (findOrCreateUser users fr.email).2
    refine ⟨d1 ++ d2, ?_⟩
    rw [planFriends]
    simp only
    rw [h2, h1, List.append_assoc]

theorem planFriends_stable (a : Nat) :
    ∀ (fs : List SplitwiseUser) (users rest : List LUser),
      planFriends a ((planFriends a users fs).1 ++ rest) fs =
        ((planFriends a users fs).1 ++ rest, (planFriends a users fs).2)
  | [], users, rest => by simp [planFriends]
  | fr :: fs, users, rest => by
    have hfst : (planFriends a users (fr :: fs)).1 =
        (planFriends a (findOrCreateUser users fr.email).2 fs).1 := by
      rw [planFriends]
    have hsnd : (planFriends a users (fr :: fs)).2 =
        friendWrites a (findOrCreateUser users fr.email).1 fr ++
          (planFriends a (findOrCreateUser users fr.email).2 fs).2 := by
      rw [planFriends]
    obtain ⟨d2, h2⟩ := planFriends_users_extend a fs (findOrCreateUser users fr.email).2
    rw [hfst, hsnd, planFriends]
    have hr' : findOrCreateUser
          ((planFriends a (findOrCreateUser users fr.email).2 fs).1 ++ rest) fr.email =
        ((findOrCreateUser users fr.email).1,
          (planFriends a (findOrCreateUser users fr.email).2 fs).1 ++ rest) := by
      rw [h2, List.append_assoc]
      exact findOrCreateUser_stable users (d2 ++ rest) fr.email
    rw [hr']
    simp only
    rw [planFriends_stable a fs (findOrCreateUser users fr.email).2 rest]

/-- One member step of the group import: find-or-create the member's local
user and add the membership row for the group when absent. -/
def groupStep (gid : Nat) (acc : List LUser × List (Nat × Nat)) (m : SwMember) :
    List LUser × List (Nat × Nat) :=
  ((findOrCreateUser acc.1 m.email).2,
    if acc.2.any (fun q => q.1 == gid && q.2 == (findOrCreateUser acc.1 m.email).1)
    then acc.2
    else acc.2 ++ [(gid, (findOrCreateUser acc.1 m.email).1)])

/-- Find the local group matched on the external group id, creating it when
absent (localId = position, standing for the autoincrement key). -/
def groupTarget (groups : List LGroup) (g : SplitwiseGroup) : Nat × List LGroup :=
  match groups.find? (fun lg => lg.splitwiseId == g.id) with
  | some lg => (lg.localId, groups)
  | none => (groups.length, groups ++ [⟨groups.length, g.id, g.name⟩])

/-- Modelled from the spec: import one external group: find or create the
local group by external id, then find or create each member's user by email
and add the missing membership rows. -/
def processGroup (st : ImportState) (g : SplitwiseGroup) : ImportState :=
  { st with
    users := (g.members.foldl (groupStep (groupTarget st.groups g).1)
      (st.users, st.memberships)).1,
    groups := (groupTarget st.groups g).2,
    memberships := (g.members.foldl (groupStep (groupTarget st.groups g).1)
      (st.users, st.memberships)).2 }

/-- Modelled from the spec: `importGroupFromSplitwise`. -/
def importGroups (st : ImportState) (gs : List SplitwiseGroup) : ImportState :=
  gs.foldl processGroup st

/-- `importUsersFromSplitWise` (router): the user/balance import followed by
the group import. -/
def importUsersFromSplitWise (actingId : Nat) (st : ImportState)
    (friends : List SplitwiseUser) (gs : List SplitwiseGroup) : ImportState :=
  importGroups (importUserBalance actingId st friends) gs

/-- The member's import outcome is present: the first user with the member's
email exists and holds a membership row in the group. -/
def memberDone (gid : Nat) (users : List LUser) (ms : List (Nat × Nat))
    (m : SwMember) : Prop :=
  ∃ u, users.find? (fun x => x.email == m.email) = some u ∧
    ms.any (fun q => q.1 == gid && q.2 == u.id) = true

/-- The group's import outcome is present in the state. -/
def groupDone (st : ImportState) (g : SplitwiseGroup) : Prop :=
  ∃ lg, st.groups.find? (fun x => x.splitwiseId == g.id) = some lg ∧
    ∀ m ∈ g.members, memberDone lg.localId st.users st.memberships m

theorem memberDone_extend {gid : Nat} {users : List LUser} {ms : List (Nat × Nat)}
    {m : SwMember} (du : List LUser) (dm : List (Nat × Nat))
    (h : memberDone gid users ms m) : memberDone gid (users ++ du) (ms ++ dm) m := by
  obtain ⟨u, h1, h2⟩ := h
  refine ⟨u, find?_append_of_some h1, ?_⟩
  rw [List.any_append, h2]
  rfl

theorem groupStep_extend (gid : Nat) (acc : List LUser × List (Nat × Nat))
    (m : SwMember) :
    ∃ du dm, (groupStep gid acc m).1 = acc.1 ++ du ∧
      (groupStep gid acc m).2 = acc.2 ++ dm := by
  obtain ⟨du, hdu⟩ := findOrCreateUser_users_extend acc.1 m.email
  refine ⟨du,
    if acc.2.any (fun q => q.1 == gid && q.2 == (findOrCreateUser acc.1 m.email).1)
    then [] else [(gid, (findOrCreateUser acc.1 m.email).1)], hdu, ?_⟩
  rw [groupStep]
  split_ifs with h <;> simp

theorem foldSteps_extend (gid : Nat) :
    ∀ (ms : List SwMember) (acc : List LUser × List (Nat × Nat)),
      ∃ du dm, (ms.foldl (groupStep gid) acc).1 = acc.1 ++ du ∧
        (ms.foldl (groupStep gid) acc).2 = acc.2 ++ dm
  | [], acc => ⟨[], [], by simp, by simp⟩
  | m0 :: rest, acc => by
    obtain ⟨du1, dm1, h1, h2⟩ := groupStep_extend gid acc m0
    obtain ⟨du2, dm2, k1, k2⟩ := foldSteps_extend gid rest (groupStep gid acc m0)
    exact ⟨du1 ++ du2, dm1 ++ dm2,
      by rw [List.foldl_cons, k1, h1, List.append_assoc],
      by rw [List.foldl_cons, k2, h2, List.append_assoc]⟩

theorem groupTarget_extend (groups : List LGroup) (g : SplitwiseGroup) :
    ∃ dg, (groupTarget groups g).2 = groups ++ dg := by
  rw [groupTarget]
  cases groups.find? (fun lg => lg.splitwiseId == g.id) with
  | some lg => exact ⟨[], by simp⟩
  | none => exact ⟨[⟨groups.length, g.id, g.name⟩], rfl⟩

theorem processGroup_extend (st : ImportState) (g : SplitwiseGroup) :
    ∃ du dg dm, (processGroup st g).users = st.users ++ du ∧
      (processGroup st g).groups = st.groups ++ dg ∧
      (processGroup st g).memberships = st.memberships ++ dm ∧
      (processGroup st g).balances = st.balances := by
  obtain ⟨du, dm, h1, h2⟩ :=
    foldSteps_extend (groupTarget st.groups g).1 g.members (st.users, st.memberships)
  obtain ⟨dg, hdg⟩ := groupTarget_extend st.groups g
  exact ⟨du, dg, dm, h1, hdg, h2, rfl⟩

theorem importGroups_extend :
    ∀ (gs : List SplitwiseGroup) (st : ImportState),
      ∃ du dg dm, (importGroups st gs).users = st.users ++ du ∧
        (importGroups st gs).groups = st.groups ++ dg ∧
        (importGroups st gs).memberships = st.memberships ++ dm ∧
        (importGroups st gs).balances = st.balances
  | [], st => ⟨[], [], [], by simp [importGroups], by simp [importGroups],
      by simp [importGroups], rfl⟩
  | g0 :: rest, st => by
    obtain ⟨du1, dg1, dm1, h1, h2, h3, h4⟩ := processGroup_extend st g0
    obtain ⟨du2, dg2, dm2, k1, k2, k3, k4⟩ := importGroups_extend rest (processGroup st g0)
    have e0 : importGroups st (g0 :: rest) = importGroups (processGroup st g0) rest := rfl
    exact ⟨du1 ++ du2, dg1 ++ dg2, dm1 ++ dm2,
      by rw [e0, k1, h1, List.append_assoc],
      by rw [e0, k2, h2, List.append_assoc],
      by rw [e0, k3, h3, List.append_assoc],
      by rw [e0, k4, h4]⟩

theorem groupDone_mono {st st' : ImportState} {g : SplitwiseGroup}
    (h : groupDone st g) (hu : ∃ du, st'.users = st.users ++ du)
    (hg : ∃ dg, st'.groups = st.groups ++ dg)
    (hm : ∃ dm, st'.memberships = st.memberships ++ dm) : groupDone st' g := by
  obtain ⟨lg, h1, h2⟩ := h
  obtain ⟨du, hdu⟩ := hu
  obtain ⟨dg, hdg⟩ := hg
  obtain ⟨dm, hdm⟩ := hm
  refine ⟨lg, ?_, ?_⟩
  · rw [hdg]
    exact find?_append_of_some h1
  · intro m hmem
    rw [hdu, hdm]
    exact memberDone_extend du dm (h2 m hmem)

theorem groupStep_done (gid : Nat) (acc : List LUser × List (Nat × Nat))
    (m : SwMember) :
    memberDone gid (groupStep gid acc m).1 (groupStep gid acc m).2 m := by
  cases h : acc.1.find? (fun x => x.email == m.email) with
  | some u =>
    have e : findOrCreateUser acc.1 m.email = (u.id, acc.1) := by
      rw [findOrCreateUser, h]
    rw [groupStep, e]
    simp only
    by_cases hmem : acc.2.any (fun q => q.1 == gid && q.2 == u.id) = true
    · rw [if_pos hmem]
      exact ⟨u, h, hmem⟩
    · rw [if_neg hmem]
      refine ⟨u, h, ?_⟩
      rw [List.any_append]
      simp
  | none =>
    have e : findOrCreateUser acc.1 m.email =
        (acc.1.length, acc.1 ++ [⟨acc.1.length, m.email, emailLocalPart m.email⟩]) := by
      rw [findOrCreateUser, h]
    rw [groupStep, e]
    simp only
    refine ⟨⟨acc.1.length, m.email, emailLocalPart m.email⟩, ?_, ?_⟩
    · rw [List.find?_append, h, Option.none_or, List.find?_cons_of_pos _ (by simp)]
    · by_cases hmem : acc.2.any (fun q => q.1 == gid && q.2 == acc.1.length) = true
      · rw [if_pos hmem]
        exact hmem
      · rw [if_neg hmem, List.any_append]
        simp

theorem groupStep_preserves_done {gid : Nat} {acc : List LUser × List (Nat × Nat)}
    {m0 : SwMember} (m : SwMember) (h : memberDone gid acc.1 acc.2 m0) :
    memberDone gid (groupStep gid acc m).1 (groupStep gid acc m).2 m0 := by
  obtain ⟨du, dm, h1, h2⟩ := groupStep_extend gid acc m
  rw [h1, h2]
  exact memberDone_extend du dm h

theorem foldSteps_preserve (gid : Nat) :
    ∀ (ms : List SwMember) (acc : List LUser × List (Nat × Nat)) (m : SwMember),
      memberDone gid acc.1 acc.2 m →
      memberDone gid (ms.foldl (groupStep gid) acc).1 (ms.foldl (groupStep gid) acc).2 m
  | [], _, _, h => h
  | m0 :: rest, acc, m, h =>
    foldSteps_preserve gid rest (groupStep gid acc m0) m
      (groupStep_preserves_done m0 h)

theorem foldSteps_done (gid : Nat) :
    ∀ (ms : List SwMember) (acc : List LUser × List (Nat × Nat)),
      ∀ m ∈ ms,
        memberDone gid (ms.foldl (groupStep gid) acc).1
          (ms.foldl (groupStep gid) acc).2 m
  | m0 :: rest, acc, m, hm => by
    rcases List.mem_cons.mp hm with heq | ht
    · subst heq
      exact foldSteps_preserve gid rest (groupStep gid acc m) m
        (groupStep_done gid acc m)
    · exact foldSteps_done gid rest (groupStep gid acc m0) m ht

theorem processGroup_done (st : ImportState) (g : SplitwiseGroup) :
    groupDone (processGroup st g) g := by
  cases hg : st.groups.find? (fun lg => lg.splitwiseId == g.id) with
  | some lg =>
    have e : groupTarget st.groups g = (lg.localId, st.groups) := by
      rw [groupTarget, hg]
    refine ⟨lg, ?_, ?_⟩
    · show (processGroup st g).groups.find? (fun x => x.splitwiseId == g.id) = some lg
      rw [processGroup]
      simp only
      rw [e]
      exact hg
    · intro m hm
      show memberDone lg.localId (processGroup st g).users (processGroup st g).memberships m
      rw [processGroup]
      simp only
      rw [e]
      exact foldSteps_done lg.localId g.members (st.users, st.memberships) m hm
  | none =>
    have e : groupTarget st.groups g =
        (st.groups.length, st.groups ++ [⟨st.groups.length, g.id, g.name⟩]) := by
      rw [groupTarget, hg]
    refine ⟨⟨st.groups.length, g.id, g.name⟩, ?_, ?_⟩
    · show (processGroup st g).groups.find? (fun x => x.splitwiseId == g.id) =
        some ⟨st.groups.length, g.id, g.name⟩
      rw [processGroup]
      simp only
      rw [e]
      simp only
      rw [List.find?_append, hg, Option.none_or, List.find?_cons_of_pos _ (by simp)]
    · intro m hm
      show memberDone (⟨st.groups.length, g.id, g.name⟩ : LGroup).localId
        (processGroup st g).users (processGroup st g).memberships m
      rw [processGroup]
      simp only
      rw [e]
      exact foldSteps_done st.groups.length g.members (st.users, st.memberships) m hm

theorem processGroup_id {st : ImportState} {g : SplitwiseGroup}
    (h : groupDone st g) : processGroup st g = st := by
  obtain ⟨lg, h1, h2⟩ := h
  have e : groupTarget st.groups g = (lg.localId, st.groups) := by
    rw [groupTarget, h1]
  have hfold : ∀ (ms : List SwMember),
      (∀ m ∈ ms, memberDone lg.localId st.users st.memberships m) →
      ms.foldl (groupStep lg.localId) (st.users, st.memberships) =
        (st.users, st.memberships) := by
    intro ms
    induction ms with
    | nil => intro _; rfl
    | cons m0 rest ih =>
      intro hall
      have hstep : groupStep lg.localId (st.users, st.memberships) m0 =
          (st.users, st.memberships) := by
        obtain ⟨u, hu1, hu2⟩ := hall m0 (List.mem_cons_self m0 rest)
        have ef : findOrCreateUser st.users m0.email = (u.id, st.users) := by
          rw [findOrCreateUser, hu1]
        rw [groupStep, ef]
        simp only
        rw [if_pos hu2]
      rw [List.foldl_cons, hstep]
      exact ih (fun m hm => hall m (List.mem_cons_of_mem m0 hm))
  rw [processGroup, e]
  simp only
  rw [hfold g.members h2]

theorem importGroups_preserves_done :
    ∀ (gs : List SplitwiseGroup) (st : ImportState) (g : SplitwiseGroup),
      groupDone st g → groupDone (importGroups st gs) g
  | [], _, _, h => h
  | g0 :: rest, st, g, h =>
    importGroups_preserves_done rest (processGroup st g0) g (by
      obtain ⟨du, dg, dm, h1, h2, h3, _⟩ := processGroup_extend st g0
      exact groupDone_mono h ⟨du, h1⟩ ⟨dg, h2⟩ ⟨dm, h3⟩)

theorem importGroups_done_all :
    ∀ (gs : List SplitwiseGroup) (st : ImportState),
      ∀ g ∈ gs, groupDone (importGroups st gs) g
  | g0 :: rest, st, g, hg => by
    rcases List.mem_cons.mp hg with heq | ht
    · subst heq
      exact importGroups_preserves_done rest (processGroup st g) g
        (processGroup_done st g)
    · exact importGroups_done_all rest (processGroup st g0) g ht

theorem importGroups_id :
    ∀ (gs : List SplitwiseGroup) (st : ImportState),
      (∀ g ∈ gs, groupDone st g) → importGroups st gs = st
  | [], _, _ => rfl
  | g0 :: rest, st, hall => by
    have e0 : importGroups st (g0 :: rest) = importGroups (processGroup st g0) rest := rfl
    rw [e0, processGroup_id (hall g0 (List.mem_cons_self g0 rest))]
    exact importGroups_id rest st (fun g hg => hall g (List.mem_cons_of_mem g0 hg))

/-- Claim C3: re-running the Splitwise import with the same input leaves the
state of the first run unchanged: users are matched by email, groups by
external id, and balance rows are updated in place, so the second run creates
no duplicate user, group, membership or balance row. -/
theorem importUsersFromSplitWise_idem (a : Nat) (st : ImportState)
    (friends : List SplitwiseUser) (gs : List SplitwiseGroup) :
    importUsersFromSplitWise a (importUsersFromSplitWise a st friends gs) friends gs =
      importUsersFromSplitWise a st friends gs := by
  obtain ⟨du, dg, dm, hu, hg, hm, hb⟩ :=
    importGroups_extend gs (importUserBalance a st friends)
  have husers : (importUsersFromSplitWise a st friends gs).users =
      (planFriends a st.users friends).1 ++ du := by
    rw [importUsersFromSplitWise]
    exact hu
  have hplan : planFriends a (importUsersFromSplitWise a st friends gs).users friends =
      ((importUsersFromSplitWise a st friends gs).users,
        (planFriends a st.users friends).2) := by
    rw [husers]
    exact planFriends_stable a friends st.users du
  have hbal : (importUsersFromSplitWise a st friends gs).balances =
      applyWrites st.balances (planFriends a st.users friends).2 := by
    rw [importUsersFromSplitWise]
    exact hb
  have himp2 : importUserBalance a (importUsersFromSplitWise a st friends gs) friends =
      importUsersFromSplitWise a st friends gs := by
    rw [importUserBalance, hplan]
    simp only
    rw [hbal, applyWrites_idem, ← hbal]
  have e0 : importUsersFromSplitWise a (importUsersFromSplitWise a st friends gs)
        friends gs
      = importGroups
          (importUserBalance a (importUsersFromSplitWise a st friends gs) friends) gs :=
    rfl
  rw [e0, himp2]
  exact importGroups_id gs (importUsersFromSplitWise a st friends gs)
    (fun g hg' => importGroups_done_all gs (importUserBalance a st friends) g hg')
